import Mathlib

/-!
# benjaminmoore-com-documentation: link harvesting and download pipeline

A shallow embedding of `main.go`.  Go strings are modelled as lists of Unicode
code points (`GoString`, that is, valid UTF-8 text), byte buffers as lists of
naturals.  The Go standard
library calls the program makes (`strings`, `path/filepath`, `regexp`, `os`,
`net/http`) are modelled by small total functions that follow the library's
documented behaviour on Unix; the Unicode case table for code points above
U+007F is not part of the program and is taken as a parameter `tbl`.
-/

namespace BenjaminMoore

/-- Go `string`, as the sequence of its code points. -/
abbrev GoString := List Char

/-! ## `strings` -/

/-- Go `unicode.ToLower`: ASCII letters are shifted, other ASCII is kept, and
code points above U+007F go through the Unicode case table `tbl`. -/
def toLowerRune (tbl : Char → Char) (c : Char) : Char :=
  if c.toNat ≤ 127 then
    if 65 ≤ c.toNat ∧ c.toNat ≤ 90 then Char.ofNat (c.toNat + 32) else c
  else tbl c

/-- Go `strings.ToLower`. -/
def ToLower (tbl : Char → Char) (s : GoString) : GoString :=
  s.map (toLowerRune tbl)

/-- Go `strings.HasPrefix`, written `startsWith s p`. -/
def startsWith : GoString → GoString → Bool
  | _, [] => true
  | [], _ :: _ => false
  | c :: cs, p :: ps => c == p && startsWith cs ps

/-- Go `strings.Contains`. -/
def Contains : GoString → GoString → Bool
  | [], sub => startsWith [] sub
  | c :: cs, sub => startsWith (c :: cs) sub || Contains cs sub

/-- The scan of `strings.ReplaceAll(s, old, "")` for a non-empty `old`: `skip`
counts the characters of a matched occurrence still to be passed over. -/
def removeScan (old : GoString) : Nat → GoString → GoString
  | _, [] => []
  | skip + 1, _ :: cs => removeScan old skip cs
  | 0, c :: cs =>
    if startsWith (c :: cs) old then removeScan old (old.length - 1) cs
    else c :: removeScan old 0 cs

/-- Go `strings.ReplaceAll(s, old, "")`: the leftmost non-overlapping
occurrences of `old` are deleted; an empty `old` leaves `s` as it is. -/
def ReplaceAllEmpty (s old : GoString) : GoString :=
  if old = [] then s else removeScan old 0 s

/-- Go `strings.Trim(s, "_")`. -/
def TrimUnderscore (s : GoString) : GoString :=
  ((s.dropWhile (· == '_')).reverse.dropWhile (· == '_')).reverse

/-- Go `unicode.IsSpace`. -/
def isSpace (c : Char) : Bool :=
  let n := c.toNat
  (9 ≤ n && n ≤ 13) || n == 32 || n == 0x85 || n == 0xA0 || n == 0x1680 ||
  (0x2000 ≤ n && n ≤ 0x200A) || n == 0x2028 || n == 0x2029 || n == 0x202F ||
  n == 0x205F || n == 0x3000

/-- Go `strings.TrimSpace`. -/
def TrimSpace (s : GoString) : GoString :=
  ((s.dropWhile isSpace).reverse.dropWhile isSpace).reverse

/-! ## `path/filepath` (Unix) -/

/-- The text after the last `/` of `p` (all of `p` when it has none). -/
def lastElement (p : GoString) : GoString :=
  (p.reverse.takeWhile (· != '/')).reverse

/-- Go `filepath.Base`. -/
def Base (path : GoString) : GoString :=
  if path = [] then ['.']
  else
    let stripped := (path.reverse.dropWhile (· == '/')).reverse
    let e := lastElement stripped
    if e = [] then ['/'] else e

/-- Go `filepath.Ext`: from the last `.` of the last element on, or empty. -/
def Ext (path : GoString) : GoString :=
  let e := lastElement path
  if e.contains '.' then '.' :: (e.reverse.takeWhile (· != '.')).reverse else []

/-! ## `regexp` -/

/-- Membership in the character class `[a-z0-9]`. -/
def isAlnumLower (c : Char) : Bool :=
  (97 ≤ c.toNat && c.toNat ≤ 122) || (48 ≤ c.toNat && c.toNat ≤ 57)

/-- Go ``regexp.MustCompile(`[^a-z0-9]`).ReplaceAllString(s, "_")``. -/
def replaceNonAlnum (s : GoString) : GoString :=
  s.map (fun c => if isAlnumLower c then c else '_')

/-- The scan of ``regexp.MustCompile(`_+`).ReplaceAllString(s, "_")``; `inRun`
says that the previous character belonged to a run of underscores. -/
def collapseScan : Bool → GoString → GoString
  | _, [] => []
  | inRun, c :: cs =>
    if c = '_' then
      if inRun then collapseScan true cs else '_' :: collapseScan true cs
    else c :: collapseScan false cs

/-- Go ``regexp.MustCompile(`_+`).ReplaceAllString(s, "_")``. -/
def collapseUnderscores (s : GoString) : GoString :=
  collapseScan false s

/-! ## Filename sanitizer -/

/-- The function `getFilename`. -/
def getFilename (path : GoString) : GoString :=
  Base path

/-- The function `getFileExtension`. -/
def getFileExtension (path : GoString) : GoString :=
  Ext path

/-- The function `removeSubstring`. -/
def removeSubstring (input toRemove : GoString) : GoString :=
  ReplaceAllEmpty input toRemove

/-- The list `invalidSubstrings` of `urlToFilename`. -/
def invalidSubstrings : List GoString :=
  ["_pdf".toList, "_zip".toList]

/-- The value of `safe` in `urlToFilename` after `strings.Trim`, before the
removal loop, computed from the lowercased file name `lower`. -/
def trimmedStem (lower : GoString) : GoString :=
  TrimUnderscore (collapseUnderscores (replaceNonAlnum lower))

/-- The value of `safe` in `urlToFilename` after the removal loop, before the
extension test. -/
def sanitizedStem (tbl : Char → Char) (rawURL : GoString) : GoString :=
  let lower := getFilename (ToLower tbl rawURL)
  invalidSubstrings.foldl removeSubstring (trimmedStem lower)

/-- The function `urlToFilename`. -/
def urlToFilename (tbl : Char → Char) (rawURL : GoString) : GoString :=
  let lower := ToLower tbl rawURL
  let lower := getFilename lower
  let ext := getFileExtension lower
  let safe := replaceNonAlnum lower
  let safe := collapseUnderscores safe
  let safe := TrimUnderscore safe
  let safe := invalidSubstrings.foldl removeSubstring safe
  if getFileExtension safe = [] then safe ++ ext else safe

/-! ## `path/filepath.Join` -/

/-- The components of a path between its `/` separators. -/
def splitSlash : GoString → List GoString
  | [] => [[]]
  | c :: cs =>
    if c = '/' then [] :: splitSlash cs
    else match splitSlash cs with
      | [] => [[c]]
      | h :: t => (c :: h) :: t

/-- One component of the loop of Go `filepath.Clean`; `out` holds the
components kept so far, the last one first. -/
def cleanStep (rooted : Bool) (out : List GoString) (comp : GoString) : List GoString :=
  if comp = [] ∨ comp = ['.'] then out
  else if comp = ['.', '.'] then
    match out with
    | top :: rest => if top = ['.', '.'] then comp :: out else rest
    | [] => if rooted then [] else [comp]
  else comp :: out

/-- Go `filepath.Clean`. -/
def Clean (path : GoString) : GoString :=
  if path = [] then ['.']
  else
    let rooted := path.head? == some '/'
    let out := (splitSlash path).foldl (cleanStep rooted) []
    let body := List.intercalate ['/'] out.reverse
    if rooted then '/' :: body
    else if body = [] then ['.'] else body

/-- Go `filepath.Join` of two elements. -/
def Join (dir name : GoString) : GoString :=
  if dir ≠ [] then Clean (dir ++ '/' :: name)
  else if name ≠ [] then Clean name
  else []

/-! ## File system, network and log -/

/-- What a path of the file system holds. -/
inductive FileNode where
  | file (content : List Nat)
  | dir
  deriving DecidableEq

/-- A file system: what each path holds, if anything. -/
abbrev FileSystem := GoString → Option FileNode

/-- The file system `fs` with `node` stored at `path`. -/
def FileSystem.store (fs : FileSystem) (path : GoString) (node : FileNode) : FileSystem :=
  fun p => if p = path then some node else fs p

/-- The result of `client.Get` together with the outcome of reading the body:
`body = none` is an error of `io.Copy`. -/
inductive GetResult where
  | transportError
  | response (statusCode : Nat) (contentType : GoString) (body : Option (List Nat))

/-- The lines `downloadPDF` logs. -/
inductive LogEvent where
  | alreadyExists (filePath : GoString)
  | requestFailed (url : GoString)
  | badStatus (url : GoString) (statusCode : Nat)
  | invalidContentType (url contentType : GoString)
  | readFailed (url : GoString)
  | emptyBody (url : GoString)
  | createFailed (url : GoString)
  | writeFailed (url : GoString)
  | downloaded (written : Nat) (url filePath : GoString)
  deriving DecidableEq

/-- The environment of one call of `downloadPDF`: the answer of the network,
whether `os.Create` is refused, and whether `buf.WriteTo` fails (after how many
bytes). -/
structure Env where
  httpGet : GoString → GetResult
  createRefused : GoString → Bool
  writeError : GoString → Option Nat

/-- The observable state: the file system, the GET requests issued so far and
the log. -/
structure World where
  fs : FileSystem
  requests : List GoString
  log : List LogEvent

/-- The world after logging `e`. -/
def World.logged (w : World) (e : LogEvent) : World :=
  { w with log := w.log ++ [e] }

/-- The function `fileExists`: `os.Stat` reports not-exist for an absent path; otherwise the
path must not be a directory. -/
def fileExists (fs : FileSystem) (filename : GoString) : Bool :=
  match fs filename with
  | none => false
  | some info => info ≠ FileNode.dir

/-- Go `os.Create`: fails on a directory or when the environment refuses,
otherwise leaves an empty file at `path`. -/
def osCreate (env : Env) (fs : FileSystem) (path : GoString) : Option FileSystem :=
  if fs path = some FileNode.dir ∨ env.createRefused path = true then none
  else some (fs.store path (FileNode.file []))

/-- The content-type marker `binary/octet-stream` of `downloadPDF`. -/
def octetStream : GoString := "binary/octet-stream".toList

/-- The content-type marker `application/pdf` of `downloadPDF`. -/
def applicationPdf : GoString := "application/pdf".toList

/-- The function `downloadPDF`. -/
def downloadPDF (tbl : Char → Char) (env : Env) (w : World)
    (finalURL outputDir : GoString) : Bool × World :=
  let filename := ToLower tbl (urlToFilename tbl finalURL)
  let filePath := Join outputDir filename
  if fileExists w.fs filePath then
    (false, w.logged (LogEvent.alreadyExists filePath))
  else
    let w := { w with requests := w.requests ++ [finalURL] }
    match env.httpGet finalURL with
    | GetResult.transportError => (false, w.logged (LogEvent.requestFailed finalURL))
    | GetResult.response statusCode contentType body =>
      if statusCode ≠ 200 then
        (false, w.logged (LogEvent.badStatus finalURL statusCode))
      else if !Contains contentType octetStream
          && !Contains contentType applicationPdf then
        (false, w.logged (LogEvent.invalidContentType finalURL contentType))
      else
        match body with
        | none => (false, w.logged (LogEvent.readFailed finalURL))
        | some buf =>
          if buf.length = 0 then
            (false, w.logged (LogEvent.emptyBody finalURL))
          else
            match osCreate env w.fs filePath with
            | none => (false, w.logged (LogEvent.createFailed finalURL))
            | some fs1 =>
              match env.writeError filePath with
              | some k =>
                (false, World.logged { w with fs := fs1.store filePath (FileNode.file (buf.take k)) }
                  (LogEvent.writeFailed finalURL))
              | none =>
                (true, World.logged { w with fs := fs1.store filePath (FileNode.file buf) }
                  (LogEvent.downloaded buf.length finalURL filePath))

/-! ## Deduplicator -/

/-- The loop of `removeDuplicatesFromSlice` over the rest of the slice, with
the map `check` and the slice `newReturnSlice` built so far. -/
def removeDuplicatesLoop :
    List GoString → (GoString → Bool) → List GoString → List GoString
  | [], _, newReturnSlice => newReturnSlice
  | content :: rest, check, newReturnSlice =>
    if !check content then
      removeDuplicatesLoop rest (fun k => if k = content then true else check k)
        (newReturnSlice ++ [content])
    else removeDuplicatesLoop rest check newReturnSlice

/-- The function `removeDuplicatesFromSlice`. -/
def removeDuplicatesFromSlice (slice : List GoString) : List GoString :=
  removeDuplicatesLoop slice (fun _ => false) []

/-! ## Link extractor -/

/-- Go `html.NodeType`. -/
inductive NodeType where
  | ErrorNode | TextNode | DocumentNode | ElementNode | CommentNode | DoctypeNode | RawNode
  deriving DecidableEq

/-- Go `html.Attribute`. -/
structure Attribute where
  Namespace : GoString
  Key : GoString
  Val : GoString
  deriving DecidableEq

/-- Go `html.Node`: its type, data, attributes and children in sibling order. -/
inductive Node where
  | mk (type : NodeType) (data : GoString) (attr : List Attribute) (children : List Node)

/-- The attribute loop of `traverse`: the links appended for the attributes. -/
def traverseAttrs (tbl : Char → Char) : List Attribute → List GoString → List GoString
  | [], pdfLinks => pdfLinks
  | attr :: rest, pdfLinks =>
    if attr.Key = "href".toList then
      let href := TrimSpace attr.Val
      if Contains (ToLower tbl href) ".pdf".toList then
        traverseAttrs tbl rest (pdfLinks ++ [href])
      else traverseAttrs tbl rest pdfLinks
    else traverseAttrs tbl rest pdfLinks

mutual
/-- The closure `traverse` of `extractPDFUrls`, passing `pdfLinks` along. -/
def traverse (tbl : Char → Char) : Node → List GoString → List GoString
  | Node.mk type data attr children, pdfLinks =>
    let pdfLinks :=
      if type = NodeType.ElementNode ∧ data = "a".toList then traverseAttrs tbl attr pdfLinks
      else pdfLinks
    traverseChildren tbl children pdfLinks
/-- The loop of `traverse` over the children, first child first. -/
def traverseChildren (tbl : Char → Char) : List Node → List GoString → List GoString
  | [], pdfLinks => pdfLinks
  | c :: rest, pdfLinks => traverseChildren tbl rest (traverse tbl c pdfLinks)
end

/-- The function `extractPDFUrls`, with `html.Parse` as the parameter `parse` (`none` is a
parse error). -/
def extractPDFUrls (tbl : Char → Char) (parse : GoString → Option Node)
    (htmlInput : GoString) : List GoString :=
  match parse htmlInput with
  | none => []
  | some doc => traverse tbl doc []

/-! ## Reading the specification -/

mutual
/-- The nodes of a tree in depth-first pre-order. -/
def preorder : Node → List Node
  | Node.mk type data attr children => Node.mk type data attr children :: preorderList children
/-- The pre-order of a list of sibling trees, first sibling first. -/
def preorderList : List Node → List Node
  | [] => []
  | c :: rest => preorder c ++ preorderList rest
end

/-- What one node contributes according to the specification: for an element
named `a`, the trimmed value of each `href` attribute whose lowercased trimmed
value contains `.pdf`. -/
def nodeLinks (tbl : Char → Char) : Node → List GoString
  | Node.mk type data attr _ =>
    if type = NodeType.ElementNode ∧ data = "a".toList then
      ((attr.filter (fun a => a.Key = "href".toList)).map (fun a => TrimSpace a.Val)).filter
        (fun href => Contains (ToLower tbl href) ".pdf".toList)
    else []

/-- The link sequence the specification describes for a parsed tree. -/
def specLinks (tbl : Char → Char) (doc : Node) : List GoString :=
  (preorder doc).flatMap (nodeLinks tbl)

/-- An element node without attributes. -/
def element (name : String) (children : List Node) : Node :=
  Node.mk NodeType.ElementNode name.toList [] children

/-- An anchor element with one `href` attribute and a text child. -/
def anchor (href : String) : Node :=
  Node.mk NodeType.ElementNode "a".toList [⟨[], "href".toList, href.toList⟩]
    [Node.mk NodeType.TextNode "x".toList [] []]

/-- The tree `html.Parse` builds for a page with three anchors whose hrefs are
`a.pdf`, `B.PDF` and `c.txt`. -/
def threeAnchors : Node :=
  Node.mk NodeType.DocumentNode [] []
    [element "html" [element "head" [],
      element "body" [anchor "a.pdf", anchor "B.PDF", anchor "c.txt"]]]


/-- Whether a name has the shape the sanitizer invariant describes: only
lowercase letters, digits, underscores and one `.`, no two underscores in a
row, no underscore at the start or right before the `.`. -/
def sanitizedShape (name : GoString) : Bool :=
  name.count '.' == 1 &&
  name.all (fun c => isAlnumLower c || c == '_' || c == '.') &&
  !Contains name "__".toList &&
  !startsWith name "_".toList &&
  !Contains name "_.".toList

/-- Whether every character of a string is ASCII. -/
def isASCII (s : GoString) : Bool :=
  s.all (fun c => c.toNat ≤ 127)

/-- The characters the sanitizer lets through: `[a-z0-9_]`. -/
def stemChar (c : Char) : Prop := isAlnumLower c = true ∨ c = '_'

/-- A stem is tidy when it has only letters, digits and underscores and every
underscore is directly followed by a letter or digit. -/
def tidy : GoString → Bool
  | [] => true
  | c :: cs =>
    (if c = '_' then
      (match cs with
        | d :: _ => isAlnumLower d
        | [] => false)
     else isAlnumLower c) && tidy cs

/-- No two underscores in a row. -/
def noDoubleUnderscore (s : GoString) : Prop :=
  List.Chain' (fun a b : Char => ¬(a = '_' ∧ b = '_')) s

/-- The gap fragments: an underscore, a proper part of `pdf` or `zip` (`p`,
`pd`, `z`, `zi`), and then an occurrence of `_pdf` or `_zip`. -/
def gapFragments : List GoString :=
  ["_p_pdf".toList, "_pd_pdf".toList, "_z_pdf".toList, "_zi_pdf".toList,
   "_p_zip".toList, "_pd_zip".toList, "_z_zip".toList, "_zi_zip".toList]

/-- Whether a stem contains none of the `gapFragments`. -/
def gapFree (s : GoString) : Bool :=
  gapFragments.all (fun f => !Contains s f)

/-- Whether, for every cut of `q` into two non-empty parts, the first part
followed by `old` contains one of the strings of `bad`. -/
def coveredSplits (q old : GoString) (bad : List GoString) : Bool :=
  (List.range q.length).all
    (fun k => k == 0 || bad.any (fun b => Contains (q.take k ++ old) b))

/-- Whether every attribute value of a node is ASCII. -/
def asciiAttrs : Node → Bool
  | Node.mk _ _ attr _ => attr.all (fun a => isASCII a.Val)

/-- The path `downloadPDF` computes for a URL and an output directory. -/
def targetPath (tbl : Char → Char) (finalURL outputDir : GoString) : GoString :=
  Join outputDir (ToLower tbl (urlToFilename tbl finalURL))

/-- The conditions under which `downloadPDF` may touch the file system: no
regular file at the target path, a GET answered with status 200, a content type
containing `binary/octet-stream` or `application/pdf`, and a body that was read
and is not empty. -/
def downloadAllowed (tbl : Char → Char) (env : Env) (w : World)
    (finalURL outputDir : GoString) : Prop :=
  (∀ content, w.fs (targetPath tbl finalURL outputDir) ≠ some (FileNode.file content)) ∧
  ∃ contentType buf,
    env.httpGet finalURL = GetResult.response 200 contentType (some buf) ∧
    (Contains contentType octetStream = true ∨
      Contains contentType applicationPdf = true) ∧
    buf ≠ []

/-- A world with an empty file system, no request issued and an empty log. -/
def emptyWorld : World :=
  ⟨fun _ => none, [], []⟩

/-- A world whose file system holds one file, at `PDFs/b_file_1.pdf`. -/
def fileWorld : World :=
  ⟨fun p => if p = "PDFs/b_file_1.pdf".toList then some (FileNode.file [37, 80]) else none,
    [], []⟩

/-- An environment whose server answers 200 with `application/pdf` and the body
`%PDF-1.4`, and in which creating and writing files works. -/
def pdfEnv : Env :=
  ⟨fun _ => GetResult.response 200 "application/pdf".toList
      (some [37, 80, 68, 70, 45, 49, 46, 52]),
    fun _ => false, fun _ => none⟩

/-- An environment whose server answers 200 with `text/html`. -/
def htmlEnv : Env :=
  ⟨fun _ => GetResult.response 200 "text/html".toList (some [60, 104, 116, 109, 108, 62]),
    fun _ => false, fun _ => none⟩

/-- The URL of the full-success scenario. -/
def scenarioURL : GoString := "https://site/a/B File (1).pdf".toList

/-! ## Lemmas on the string functions -/

theorem toLowerRune_ascii (tbl tbl2 : Char → Char) (c : Char) (h : c.toNat ≤ 127) :
    toLowerRune tbl c = toLowerRune tbl2 c := by
  simp [toLowerRune, h]

theorem ToLower_ascii (tbl tbl2 : Char → Char) (s : GoString) (h : isASCII s = true) :
    ToLower tbl s = ToLower tbl2 s := by
  unfold ToLower
  apply List.map_congr_left
  intro c hc
  apply toLowerRune_ascii
  simp only [isASCII, List.all_eq_true, decide_eq_true_eq] at h
  exact h c hc

theorem urlToFilename_congr (tbl tbl2 : Char → Char) (s : GoString)
    (h : ToLower tbl s = ToLower tbl2 s) : urlToFilename tbl s = urlToFilename tbl2 s := by
  unfold urlToFilename
  rw [h]

theorem urlToFilename_ascii (tbl : Char → Char) (s : GoString) (h : isASCII s = true) :
    urlToFilename tbl s = urlToFilename id s :=
  urlToFilename_congr tbl id s (ToLower_ascii tbl id s h)

theorem removeScan_sublist (old : GoString) :
    ∀ (s : GoString) (k : Nat), (removeScan old k s).Sublist s := by
  intro s
  induction s with
  | nil => intro k; cases k <;> simp [removeScan]
  | cons c cs ih =>
    intro k
    cases k with
    | zero =>
      simp only [removeScan]
      split
      · exact (ih _).trans (List.sublist_cons_self c cs)
      · exact (ih 0).cons₂ c
    | succ k =>
      simp only [removeScan]
      exact (ih k).trans (List.sublist_cons_self c cs)

theorem removeSubstring_sublist (s old : GoString) : (removeSubstring s old).Sublist s := by
  unfold removeSubstring ReplaceAllEmpty
  split
  · exact List.Sublist.refl s
  · exact removeScan_sublist old s 0

theorem collapseScan_sublist : ∀ (s : GoString) (b : Bool), (collapseScan b s).Sublist s := by
  intro s
  induction s with
  | nil => intro b; simp [collapseScan]
  | cons c cs ih =>
    intro b
    simp only [collapseScan]
    split
    · split
      · exact (ih true).trans (List.sublist_cons_self c cs)
      · rename_i hc _
        subst hc
        exact (ih true).cons₂ _
    · exact (ih false).cons₂ c

theorem TrimUnderscore_sublist (s : GoString) : (TrimUnderscore s).Sublist s := by
  unfold TrimUnderscore
  have h1 : ((s.dropWhile (· == '_')).reverse.dropWhile (· == '_')).Sublist
      (s.dropWhile (· == '_')).reverse := (List.dropWhile_suffix _).sublist
  have h2 := h1.reverse
  rw [List.reverse_reverse] at h2
  exact h2.trans (List.dropWhile_suffix _).sublist

theorem replaceNonAlnum_stemChar (s : GoString) : ∀ c ∈ replaceNonAlnum s, stemChar c := by
  intro c hc
  simp only [replaceNonAlnum, List.mem_map] at hc
  obtain ⟨d, _, hd⟩ := hc
  by_cases h : isAlnumLower d = true
  · simp only [h, if_true] at hd
    subst hd
    exact Or.inl h
  · simp only [h] at hd
    exact Or.inr hd.symm

theorem trimmedStem_stemChar (lower : GoString) : ∀ c ∈ trimmedStem lower, stemChar c := by
  intro c hc
  apply replaceNonAlnum_stemChar lower
  exact (collapseScan_sublist _ false).subset ((TrimUnderscore_sublist _).subset hc)

theorem sanitizedStem_sublist (tbl : Char → Char) (s : GoString) :
    (sanitizedStem tbl s).Sublist (trimmedStem (getFilename (ToLower tbl s))) := by
  simp only [sanitizedStem, invalidSubstrings, List.foldl]
  exact (removeSubstring_sublist _ _).trans (removeSubstring_sublist _ _)

theorem sanitizedStem_stemChar (tbl : Char → Char) (s : GoString) :
    ∀ c ∈ sanitizedStem tbl s, stemChar c := by
  intro c hc
  exact trimmedStem_stemChar _ c ((sanitizedStem_sublist tbl s).subset hc)

theorem lastElement_suffix (p : GoString) : lastElement p <:+ p := by
  unfold lastElement
  have h : p.reverse.takeWhile (fun c => c != '/') <+: p.reverse :=
    ( List.takeWhile_prefix _)
  have h2 := List.reverse_suffix.mpr h
  simpa using h2

theorem Ext_eq_nil_of_no_dot (p : GoString) (h : '.' ∉ p) : Ext p = [] := by
  unfold Ext
  have : '.' ∉ lastElement p := fun hm => h ((lastElement_suffix p).subset hm)
  simp [this]

theorem stemChar_ne_dot {c : Char} (h : stemChar c) : c ≠ '.' := by
  rintro rfl
  rcases h with h | h
  · revert h; decide
  · revert h; decide

theorem sanitizedStem_ext (tbl : Char → Char) (s : GoString) :
    getFileExtension (sanitizedStem tbl s) = [] := by
  unfold getFileExtension
  apply Ext_eq_nil_of_no_dot
  intro h
  exact stemChar_ne_dot (sanitizedStem_stemChar tbl s _ h) rfl

theorem urlToFilename_eq (tbl : Char → Char) (s : GoString) :
    urlToFilename tbl s =
      sanitizedStem tbl s ++ getFileExtension (getFilename (ToLower tbl s)) := by
  have h := sanitizedStem_ext tbl s
  unfold urlToFilename
  simp only [sanitizedStem, trimmedStem] at h ⊢
  rw [if_pos h]

theorem Base_slash (p : GoString) : Base p = ['/'] ∨ '/' ∉ Base p := by
  unfold Base
  split
  · right; decide
  · simp only []
    split
    · left; rfl
    · right
      intro h
      unfold lastElement at h
      rw [List.mem_reverse] at h
      have := List.mem_takeWhile_imp h
      simp at this

theorem lastElement_eq_self (p : GoString) (h : '/' ∉ p) : lastElement p = p := by
  unfold lastElement
  have : p.reverse.takeWhile (fun c => c != '/') = p.reverse := by
    rw [List.takeWhile_eq_self_iff]
    intro x hx
    rw [List.mem_reverse] at hx
    have : x ≠ '/' := fun e => h (e ▸ hx)
    simpa using this
  rw [this, List.reverse_reverse]

theorem Ext_spec (p : GoString) (hs : '/' ∉ p) :
    ('.' ∉ p → Ext p = []) ∧
    ('.' ∈ p → ∃ pre post, p = pre ++ '.' :: post ∧ '.' ∉ post ∧ Ext p = '.' :: post) := by
  refine ⟨Ext_eq_nil_of_no_dot p, ?_⟩
  intro hmem
  have hne : p.reverse.dropWhile (fun c => c != '.') ≠ [] := by
    intro h
    rw [List.dropWhile_eq_nil_iff] at h
    have := h '.' (by simpa using hmem)
    simp at this
  obtain ⟨d, ds, hd⟩ := List.exists_cons_of_ne_nil hne
  have hd0 : d = '.' := by
    have := List.head_dropWhile_not (fun c => c != '.') p.reverse hne
    simp only [hd, List.head_cons] at this
    simpa using this
  have hsplit : p.reverse.takeWhile (fun c => c != '.') ++
      p.reverse.dropWhile (fun c => c != '.') = p.reverse :=
    List.takeWhile_append_dropWhile _ _
  rw [hd, hd0] at hsplit
  have hp : p = ds.reverse ++ '.' :: (p.reverse.takeWhile (fun c => c != '.')).reverse := by
    have := congrArg List.reverse hsplit
    simp only [List.reverse_append, List.reverse_cons, List.reverse_reverse,
      List.append_assoc, List.singleton_append] at this
    exact this.symm
  refine ⟨ds.reverse, (p.reverse.takeWhile (fun c => c != '.')).reverse, hp, ?_, ?_⟩
  · intro h
    rw [List.mem_reverse] at h
    have := List.mem_takeWhile_imp h
    simp at this
  · unfold Ext
    rw [lastElement_eq_self p hs]
    simp [hmem]

theorem recordedExt_spec (tbl : Char → Char) (s : GoString) :
    ('.' ∉ getFilename (ToLower tbl s) →
      getFileExtension (getFilename (ToLower tbl s)) = []) ∧
    ('.' ∈ getFilename (ToLower tbl s) →
      ∃ pre post, getFilename (ToLower tbl s) = pre ++ '.' :: post ∧ '.' ∉ post ∧
        getFileExtension (getFilename (ToLower tbl s)) = '.' :: post) := by
  unfold getFileExtension getFilename
  rcases Base_slash (ToLower tbl s) with h | h
  · rw [h]
    refine ⟨fun _ => by decide, fun hm => ?_⟩
    exact absurd hm (by decide)
  · exact Ext_spec _ h

theorem collapseScan_chain : ∀ (s : GoString) (b : Bool),
    noDoubleUnderscore (collapseScan b s) ∧
      (b = true → (collapseScan b s).head? ≠ some '_') := by
  intro s
  induction s with
  | nil => intro b; simp [collapseScan, noDoubleUnderscore]
  | cons c cs ih =>
    intro b
    by_cases hc : c = '_'
    · cases b with
      | true =>
        simp only [collapseScan, hc, if_true]
        exact ⟨(ih true).1, fun _ => (ih true).2 rfl⟩
      | false =>
        simp only [collapseScan, hc, if_true, Bool.false_eq_true, if_false]
        refine ⟨?_, fun h => absurd h (by decide)⟩
        unfold noDoubleUnderscore
        rw [List.chain'_cons']
        refine ⟨?_, (ih true).1⟩
        intro y hy h
        apply (ih true).2 rfl
        rw [Option.mem_def] at hy
        rw [hy, h.2]
    · simp only [collapseScan, hc, if_false]
      refine ⟨?_, fun _ => by simpa using hc⟩
      unfold noDoubleUnderscore
      rw [List.chain'_cons']
      exact ⟨fun y _ h => hc h.1, (ih false).1⟩

theorem TrimUnderscore_initial (s : GoString) :
    TrimUnderscore s <+: s.dropWhile (· == '_') := by
  unfold TrimUnderscore
  have h : (s.dropWhile (· == '_')).reverse.dropWhile (fun c => c == '_') <:+
      (s.dropWhile (· == '_')).reverse := List.dropWhile_suffix _
  have h2 := ( List.reverse_prefix).mpr h
  rwa [List.reverse_reverse] at h2

theorem TrimUnderscore_inside (s : GoString) : TrimUnderscore s <:+: s := by
  obtain ⟨r, hr⟩ := TrimUnderscore_initial s
  have hsuf : s.dropWhile (fun c => c == '_') <:+ s := List.dropWhile_suffix _
  obtain ⟨l, hl⟩ := hsuf
  exact ⟨l, r, by rw [List.append_assoc, hr, hl]⟩

theorem TrimUnderscore_head (s : GoString) : (TrimUnderscore s).head? ≠ some '_' := by
  intro h
  obtain ⟨r, hr⟩ := TrimUnderscore_initial s
  have h1 := List.head?_dropWhile_not (fun c => c == '_') s
  cases ht : TrimUnderscore s with
  | nil => rw [ht] at h; simp at h
  | cons c cs =>
    rw [ht] at h hr
    simp only [List.head?_cons, Option.some.injEq] at h
    rw [← hr] at h1
    simp [h] at h1

theorem TrimUnderscore_last (s : GoString) : (TrimUnderscore s).getLast? ≠ some '_' := by
  intro h
  unfold TrimUnderscore at h
  rw [List.getLast?_reverse] at h
  have h1 := List.head?_dropWhile_not (fun c => c == '_') (s.dropWhile (· == '_')).reverse
  rw [h] at h1
  simp at h1

theorem isAlnumLower_ne_underscore {c : Char} (h : isAlnumLower c = true) : c ≠ '_' := by
  rintro rfl
  revert h
  decide

theorem tidy_of_chain : ∀ (s : GoString), (∀ c ∈ s, stemChar c) → noDoubleUnderscore s →
    s.getLast? ≠ some '_' → tidy s = true := by
  intro s
  induction s with
  | nil => intros; rfl
  | cons c cs ih =>
    intro hc hch hl
    have hcs : ∀ c ∈ cs, stemChar c := fun x hx => hc x (List.mem_cons_of_mem _ hx)
    unfold noDoubleUnderscore at hch
    rw [List.chain'_cons'] at hch
    cases cs with
    | nil =>
      have hne : c ≠ '_' := by
        intro e; apply hl; simp [e]
      have ha : isAlnumLower c = true := by
        rcases hc c (List.mem_cons_self _ _) with h | h
        · exact h
        · exact absurd h hne
      simp [tidy, hne, ha]
    | cons d ds =>
      have hl2 : (d :: ds).getLast? ≠ some '_' := by
        rwa [List.getLast?_cons_cons] at hl
      have ht := ih hcs hch.2 hl2
      by_cases hne : c = '_'
      · have hd : d ≠ '_' := fun e => hch.1 d (by simp) ⟨hne, e⟩
        have ha : isAlnumLower d = true := by
          rcases hc d (by simp) with h | h
          · exact h
          · exact absurd h hd
        rw [tidy, ht]
        simp [hne, ha]
      · have ha : isAlnumLower c = true := by
          rcases hc c (List.mem_cons_self _ _) with h | h
          · exact h
          · exact absurd h hne
        rw [tidy, ht]
        simp [hne, ha]

theorem trimmedStem_tidy (lower : GoString) :
    tidy (trimmedStem lower) = true ∧ (trimmedStem lower).head? ≠ some '_' := by
  refine ⟨?_, TrimUnderscore_head _⟩
  apply tidy_of_chain _ (trimmedStem_stemChar lower)
  · exact List.Chain'.infix (collapseScan_chain _ false).1 (TrimUnderscore_inside _)
  · exact TrimUnderscore_last _

theorem removeScan_nil (old : GoString) (k : Nat) : removeScan old k [] = [] := by
  cases k <;> rfl

theorem removeScan_skip (old : GoString) :
    ∀ (s : GoString) (k : Nat), removeScan old k s = removeScan old 0 (s.drop k) := by
  intro s
  induction s with
  | nil => intro k; simp [removeScan_nil]
  | cons c cs ih =>
    intro k
    cases k with
    | zero => rfl
    | succ k =>
      rw [List.drop_succ_cons, ← ih k]
      rfl

theorem removeScan_cons (o : Char) (os : GoString) (c : Char) (cs : GoString) :
    removeScan (o :: os) 0 (c :: cs) =
      if startsWith (c :: cs) (o :: os) then removeScan (o :: os) 0 (cs.drop os.length)
      else c :: removeScan (o :: os) 0 cs := by
  rw [removeScan]
  split
  · rw [removeScan_skip]
    simp
  · rfl

theorem removeScan_cons_ne (o : Char) (os : GoString) (c : Char) (cs : GoString)
    (h : c ≠ o) : removeScan (o :: os) 0 (c :: cs) = c :: removeScan (o :: os) 0 cs := by
  rw [removeScan_cons]
  simp [startsWith, h]

theorem tidy_cons (c : Char) (cs : GoString) :
    tidy (c :: cs) =
      ((if c = '_' then cs.head?.elim false isAlnumLower else isAlnumLower c) && tidy cs) := by
  cases cs <;> rfl

theorem tidy_tail {c : Char} {cs : GoString} (h : tidy (c :: cs) = true) : tidy cs = true := by
  rw [tidy_cons, Bool.and_eq_true] at h
  exact h.2

theorem tidy_drop : ∀ (k : Nat) (s : GoString), tidy s = true → tidy (s.drop k) = true := by
  intro k
  induction k with
  | zero => intro s h; simpa using h
  | succ k ih =>
    intro s h
    cases s with
    | nil => simpa using h
    | cons c cs => simpa using ih cs (tidy_tail h)

theorem tidy_underscore {cs : GoString} (h : tidy ('_' :: cs) = true) :
    ∃ d ds, cs = d :: ds ∧ isAlnumLower d = true := by
  rw [tidy_cons, Bool.and_eq_true] at h
  cases cs with
  | nil => simp at h
  | cons d ds => exact ⟨d, ds, rfl, by simpa using h.1⟩

theorem tidy_alnum {c : Char} {cs : GoString} (h : tidy (c :: cs) = true) (hc : c ≠ '_') :
    isAlnumLower c = true := by
  rw [tidy_cons, Bool.and_eq_true] at h
  simpa [hc] using h.1

theorem removeScan_tidy (w : GoString) : ∀ (n : Nat) (s : GoString), s.length ≤ n →
    tidy s = true →
    tidy (removeScan ('_' :: w) 0 s) = true ∧
      ((removeScan ('_' :: w) 0 s).head? = some '_' → s.head? = some '_') := by
  intro n
  induction n with
  | zero =>
    intro s hn _
    have : s = [] := List.length_eq_zero.mp (Nat.le_zero.mp hn)
    subst this
    simp [removeScan_nil, tidy]
  | succ n ih =>
    intro s hn ht
    cases s with
    | nil => simp [removeScan_nil, tidy]
    | cons c cs =>
      have hlen : cs.length ≤ n := by simpa using hn
      rw [removeScan_cons]
      by_cases hm : startsWith (c :: cs) ('_' :: w) = true
      · rw [if_pos hm]
        have hc : c = '_' := by
          simp only [startsWith, Bool.and_eq_true, beq_iff_eq] at hm
          exact hm.1
        refine ⟨(ih (cs.drop w.length) ?_ (tidy_drop _ _ (tidy_tail ht))).1, fun _ => by simp [hc]⟩
        exact le_trans (by simp) hlen
      · rw [if_neg hm]
        refine ⟨?_, fun h => by simpa using h⟩
        have hcs := (ih cs hlen (tidy_tail ht)).1
        by_cases hc : c = '_'
        · subst hc
          obtain ⟨d, ds, rfl, hd⟩ := tidy_underscore ht
          have hne := isAlnumLower_ne_underscore hd
          rw [removeScan_cons_ne _ _ _ _ hne] at hcs ⊢
          rw [tidy_cons, hcs]
          simp [hd]
        · rw [tidy_cons, hcs]
          simp [hc, tidy_alnum ht hc]

theorem removeSubstring_tidy (w s : GoString) (ht : tidy s = true)
    (hh : s.head? ≠ some '_') :
    tidy (removeSubstring s ('_' :: w)) = true ∧
      (removeSubstring s ('_' :: w)).head? ≠ some '_' := by
  have h := removeScan_tidy w s.length s (le_refl _) ht
  simp only [removeSubstring, ReplaceAllEmpty, List.cons_ne_nil, if_false, reduceCtorEq]
  exact ⟨h.1, fun e => hh (h.2 e)⟩

theorem sanitizedStem_tidy (tbl : Char → Char) (s : GoString) :
    tidy (sanitizedStem tbl s) = true ∧ (sanitizedStem tbl s).head? ≠ some '_' := by
  have h0 := trimmedStem_tidy (getFilename (ToLower tbl s))
  have h1 := removeSubstring_tidy ['p', 'd', 'f'] _ h0.1 h0.2
  exact removeSubstring_tidy ['z', 'i', 'p'] _ h1.1 h1.2

theorem tidy_not_double : ∀ (s : GoString), tidy s = true →
    Contains s "__".toList = false := by
  intro s
  induction s with
  | nil => intro _; rfl
  | cons c cs ih =>
    intro ht
    have h2 := ih (tidy_tail ht)
    rw [Contains, h2, Bool.or_false]
    by_cases hc : c = '_'
    · subst hc
      obtain ⟨d, ds, rfl, hd⟩ := tidy_underscore ht
      have hne := isAlnumLower_ne_underscore hd
      show startsWith ('_' :: d :: ds) ['_', '_'] = false
      simp [startsWith, hne]
    · show startsWith (c :: cs) ['_', '_'] = false
      simp [startsWith, hc]

theorem tidy_last : ∀ (s : GoString), tidy s = true → s.getLast? ≠ some '_' := by
  intro s
  induction s with
  | nil => intro _; simp
  | cons c cs ih =>
    intro ht
    cases cs with
    | nil =>
      rw [tidy_cons] at ht
      intro h
      simp only [List.getLast?_singleton, Option.some.injEq] at h
      subst h
      simp at ht
    | cons d ds =>
      rw [List.getLast?_cons_cons]
      exact ih (tidy_tail ht)

theorem startsWith_nil (s : GoString) : startsWith s [] = true := by
  cases s <;> rfl

theorem Contains_of_startsWith (s y : GoString) (h : startsWith s y = true) :
    Contains s y = true := by
  cases s with
  | nil => simpa [Contains] using h
  | cons c cs => simp [Contains, h]

theorem Contains_append_left (y : GoString) : ∀ (pre r : GoString),
    startsWith r y = true → Contains (pre ++ r) y = true := by
  intro pre
  induction pre with
  | nil => intro r h; exact Contains_of_startsWith r y h
  | cons c cs ih =>
    intro r h
    rw [List.cons_append, Contains, ih r h, Bool.or_true]

theorem startsWith_iff : ∀ (y s : GoString),
    startsWith s y = true ↔ ∃ post, s = y ++ post := by
  intro y
  induction y with
  | nil => intro s; simp [startsWith_nil]
  | cons p ps ih =>
    intro s
    cases s with
    | nil => simp [startsWith]
    | cons c cs =>
      simp only [startsWith, Bool.and_eq_true, beq_iff_eq, ih, List.cons_append,
        List.cons.injEq]
      constructor
      · rintro ⟨h1, post, h2⟩
        exact ⟨post, h1, h2⟩
      · rintro ⟨post, h1, h2⟩
        exact ⟨h1, post, h2⟩

theorem Contains_iff (y : GoString) : ∀ (s : GoString),
    Contains s y = true ↔ ∃ pre post, s = pre ++ (y ++ post) := by
  intro s
  induction s with
  | nil =>
    rw [Contains, startsWith_iff]
    constructor
    · rintro ⟨post, h⟩
      exact ⟨[], post, h⟩
    · rintro ⟨pre, post, h⟩
      have h2 := List.append_eq_nil.mp h.symm
      exact ⟨post, by rw [h2.2]⟩
  | cons c cs ih =>
    rw [Contains, Bool.or_eq_true, startsWith_iff, ih]
    constructor
    · rintro (⟨post, h⟩ | ⟨pre, post, h⟩)
      · exact ⟨[], post, h⟩
      · exact ⟨c :: pre, post, by rw [h]; rfl⟩
    · rintro ⟨pre, post, h⟩
      cases pre with
      | nil => exact Or.inl ⟨post, h⟩
      | cons d pre =>
        rw [List.cons_append, List.cons.injEq] at h
        exact Or.inr ⟨pre, post, h.2⟩

theorem Contains_trans (s m b : GoString) (h1 : Contains s m = true)
    (h2 : Contains m b = true) : Contains s b = true := by
  rw [Contains_iff] at h1 h2 ⊢
  obtain ⟨pre1, post1, e1⟩ := h1
  obtain ⟨pre2, post2, e2⟩ := h2
  refine ⟨pre1 ++ pre2, post2 ++ post1, ?_⟩
  rw [e1, e2]
  simp

/-- An occurrence of `q` in the output of a removal pass starts at a character
of the input that the scan kept. -/
theorem removeScan_contains (o : Char) (os q : GoString) (hq : q ≠ []) :
    ∀ (n : Nat) (s : GoString), s.length ≤ n →
    Contains (removeScan (o :: os) 0 s) q = true →
    ∃ pre rest, s = pre ++ rest ∧ startsWith rest (o :: os) = false ∧
      startsWith (removeScan (o :: os) 0 rest) q = true := by
  have hnil : Contains [] q = false := by
    cases q with
    | nil => exact absurd rfl hq
    | cons a q2 => rfl
  intro n
  induction n with
  | zero =>
    intro s hn h
    have : s = [] := List.length_eq_zero.mp (Nat.le_zero.mp hn)
    subst this
    rw [removeScan_nil, hnil] at h
    exact Bool.noConfusion h
  | succ n ih =>
    intro s hn h
    cases s with
    | nil =>
      rw [removeScan_nil, hnil] at h
      exact Bool.noConfusion h
    | cons c cs =>
      have hlen : cs.length ≤ n := by simpa using hn
      by_cases hm : startsWith (c :: cs) (o :: os) = true
      · rw [removeScan_cons, if_pos hm] at h
        obtain ⟨pre, rest, he, h1, h2⟩ := ih (cs.drop os.length) (le_trans (by simp) hlen) h
        refine ⟨c :: (cs.take os.length ++ pre), rest, ?_, h1, h2⟩
        rw [List.cons_append, List.append_assoc, ← he, List.take_append_drop]
      · have hR : removeScan (o :: os) 0 (c :: cs) = c :: removeScan (o :: os) 0 cs := by
          rw [removeScan_cons, if_neg hm]
        rw [hR, Contains, Bool.or_eq_true] at h
        rcases h with h | h
        · refine ⟨[], c :: cs, rfl, by simpa using hm, ?_⟩
          rw [hR]
          exact h
        · obtain ⟨pre, rest, he, h1, h2⟩ := ih cs hlen h
          exact ⟨c :: pre, rest, by rw [he]; rfl, h1, h2⟩

/-- Text at the start of the output of a removal pass is at the start of the
input as well, unless an occurrence of `old` was removed inside it. -/
theorem removeScan_startsWith (o : Char) (os : GoString) : ∀ (z s : GoString), z ≠ [] →
    startsWith (removeScan (o :: os) 0 s) z = true →
    (startsWith s (o :: os) = false ∧ startsWith s z = true) ∨
      ∃ z1 z2, z = z1 ++ z2 ∧ z2 ≠ [] ∧ startsWith s (z1 ++ o :: os) = true := by
  intro z
  induction z with
  | nil => intro s h; exact absurd rfl h
  | cons a z2 ih =>
    intro s _ h
    cases s with
    | nil =>
      rw [removeScan_nil] at h
      exact Bool.noConfusion h
    | cons c cs =>
      by_cases hm : startsWith (c :: cs) (o :: os) = true
      · exact Or.inr ⟨[], a :: z2, rfl, by simp, hm⟩
      · rw [removeScan_cons, if_neg hm] at h
        simp only [startsWith, Bool.and_eq_true, beq_iff_eq] at h
        obtain ⟨hca, h1⟩ := h
        subst hca
        have hm2 : startsWith (c :: cs) (o :: os) = false := by simpa using hm
        cases z2 with
        | nil =>
          left
          refine ⟨hm2, ?_⟩
          simp [startsWith, startsWith_nil]
        | cons a2 z3 =>
          rcases ih cs (by simp) h1 with ⟨_, h2⟩ | ⟨y1, y2, he, hne, h2⟩
          · left
            refine ⟨hm2, ?_⟩
            rw [startsWith, h2]
            simp
          · right
            refine ⟨c :: y1, y2, by rw [he]; rfl, hne, ?_⟩
            rw [List.cons_append, startsWith, h2]
            simp

/-- One removal pass leaves an occurrence of `q` only where the input has one
that is not itself an occurrence of `old`, or where removing `old` after a
non-empty first part of `q` closes a gap. -/
theorem removeScan_creates (o : Char) (os q s : GoString) (hq : q ≠ [])
    (h : Contains (removeScan (o :: os) 0 s) q = true) :
    (∃ pre rest, s = pre ++ rest ∧ startsWith rest (o :: os) = false ∧
        startsWith rest q = true) ∨
      ∃ z1 z2, q = z1 ++ z2 ∧ z1 ≠ [] ∧ z2 ≠ [] ∧ Contains s (z1 ++ o :: os) = true := by
  obtain ⟨pre, rest, he, h1, h2⟩ := removeScan_contains o os q hq s.length s (le_refl _) h
  rcases removeScan_startsWith o os q rest hq h2 with ⟨_, h3⟩ | ⟨z1, z2, hz, hne, h3⟩
  · exact Or.inl ⟨pre, rest, he, h1, h3⟩
  · right
    have hz1 : z1 ≠ [] := by
      rintro rfl
      rw [List.nil_append, h1] at h3
      exact Bool.noConfusion h3
    refine ⟨z1, z2, hz, hz1, hne, ?_⟩
    rw [he]
    exact Contains_append_left _ pre rest h3

/-- A removal pass does not create `q` when the input contains none of the
strings of `bad`, every cut of `q` followed by `old` contains one of them, and
`q` is `old` itself or absent from the input. -/
theorem removeScan_no_new (o : Char) (os q s : GoString) (bad : List GoString)
    (hq : q ≠ [])
    (hbad : ∀ b ∈ bad, Contains s b = false)
    (hcov : coveredSplits q (o :: os) bad = true)
    (hdirect : q = o :: os ∨ Contains s q = false) :
    Contains (removeScan (o :: os) 0 s) q = false := by
  by_contra h
  rw [Bool.not_eq_false] at h
  rcases removeScan_creates o os q s hq h with ⟨pre, rest, he, h1, h2⟩ | ⟨z1, z2, hz, h1, h2, hc⟩
  · rcases hdirect with hd | hd
    · rw [hd, h1] at h2
      exact Bool.noConfusion h2
    · rw [he, Contains_append_left q pre rest h2] at hd
      exact Bool.noConfusion hd
  · have hlen : z1.length < q.length := by
      rw [hz, List.length_append]
      have : 0 < z2.length := List.length_pos.mpr h2
      omega
    have hpos : 0 < z1.length := List.length_pos.mpr h1
    have htake : q.take z1.length = z1 := by
      rw [hz]
      exact List.take_left' rfl
    simp only [coveredSplits, List.all_eq_true, List.mem_range, Bool.or_eq_true,
      beq_iff_eq, List.any_eq_true] at hcov
    rcases hcov z1.length hlen with h0 | ⟨b, hb, hcb⟩
    · omega
    · rw [htake] at hcb
      have := Contains_trans s _ b hc hcb
      rw [hbad b hb] at this
      exact Bool.noConfusion this

theorem gapFree_mem (s : GoString) (hg : gapFree s = true) :
    ∀ b ∈ gapFragments, Contains s b = false := by
  intro b hb
  simp only [gapFree, List.all_eq_true, Bool.not_eq_true'] at hg
  exact hg b hb

theorem stem_clean_of_gapFree (lower : GoString)
    (hg : gapFree (trimmedStem lower) = true) :
    Contains (invalidSubstrings.foldl removeSubstring (trimmedStem lower))
        "_pdf".toList = false ∧
      Contains (invalidSubstrings.foldl removeSubstring (trimmedStem lower))
        "_zip".toList = false := by
  have h0 := trimmedStem_tidy lower
  have e : invalidSubstrings.foldl removeSubstring (trimmedStem lower) =
      removeScan ('_' :: "zip".toList) 0
        (removeScan ('_' :: "pdf".toList) 0 (trimmedStem lower)) := by
    simp [invalidSubstrings, removeSubstring, ReplaceAllEmpty]
  rw [e]
  -- the stem before the loop contains neither `__` nor a gap fragment
  have bad0 : ∀ b ∈ "__".toList :: gapFragments, Contains (trimmedStem lower) b = false := by
    intro b hb
    rcases List.mem_cons.mp hb with rfl | hb
    · exact tidy_not_double _ h0.1
    · exact gapFree_mem _ hg b hb
  -- after the `_pdf` pass
  have t1 := (removeScan_tidy "pdf".toList _ _ (le_refl _) h0.1).1
  have c1 : Contains (removeScan ('_' :: "pdf".toList) 0 (trimmedStem lower))
      "_pdf".toList = false :=
    removeScan_no_new '_' "pdf".toList "_pdf".toList _ _ (by decide) bad0 (by decide)
      (Or.inl rfl)
  have keep : ∀ q ∈ ["_p_zip".toList, "_pd_zip".toList, "_z_zip".toList, "_zi_zip".toList],
      Contains (removeScan ('_' :: "pdf".toList) 0 (trimmedStem lower)) q = false := by
    intro q hq
    have hmem : q ∈ gapFragments := by
      revert q
      decide
    have hcov : coveredSplits q ('_' :: "pdf".toList) ("__".toList :: gapFragments) = true := by
      revert q
      decide
    have hne : q ≠ [] := by
      revert q
      decide
    exact removeScan_no_new '_' "pdf".toList q _ _ hne bad0 hcov
      (Or.inr (gapFree_mem _ hg q hmem))
  have bad1 : ∀ b ∈ ["__".toList, "_p_zip".toList, "_pd_zip".toList, "_z_zip".toList,
      "_zi_zip".toList],
      Contains (removeScan ('_' :: "pdf".toList) 0 (trimmedStem lower)) b = false := by
    intro b hb
    rcases List.mem_cons.mp hb with rfl | hb
    · exact tidy_not_double _ t1
    · exact keep b hb
  -- after the `_zip` pass
  exact ⟨removeScan_no_new '_' "zip".toList "_pdf".toList _ _ (by decide) bad1 (by decide)
      (Or.inr c1),
    removeScan_no_new '_' "zip".toList "_zip".toList _ _ (by decide) bad1 (by decide)
      (Or.inl rfl)⟩

/-! ## Filename sanitizer: the claims -/

/-- C7: `urlToFilename` maps the worked examples as stated:
`https://example.com/Data-Sheets/SDS_2024.PDF` to `sds_2024.pdf`,
`https://x.com/file.name.with.dots.pdf` to `file_name_with_dots.pdf`, and
`https://x.com/report_pdf_final` to `report_final`, a name without extension. -/
theorem urlToFilename_examples (tbl : Char → Char) :
    urlToFilename tbl "https://example.com/Data-Sheets/SDS_2024.PDF".toList
        = "sds_2024.pdf".toList ∧
    urlToFilename tbl "https://x.com/file.name.with.dots.pdf".toList
        = "file_name_with_dots.pdf".toList ∧
    urlToFilename tbl "https://x.com/report_pdf_final".toList = "report_final".toList ∧
    getFileExtension "report_final".toList = [] := by
  refine ⟨?_, ?_, ?_, by decide⟩
  · rw [urlToFilename_ascii tbl _ (by decide)]; decide
  · rw [urlToFilename_ascii tbl _ (by decide)]; decide
  · rw [urlToFilename_ascii tbl _ (by decide)]; decide

/-- C10: the stem `urlToFilename` has after the substring removals consists of
characters of `[a-z0-9_]` only, so it has no file extension, the extension test
succeeds, and the result is that stem followed by the extension recorded from
the lowercased final path segment: empty when the segment has no `.`, and
otherwise the segment's text from its last `.` on, as it is. -/
theorem urlToFilename_stem_ext (tbl : Char → Char) (s : GoString) :
    (∀ c ∈ sanitizedStem tbl s, stemChar c) ∧
    getFileExtension (sanitizedStem tbl s) = [] ∧
    urlToFilename tbl s =
      sanitizedStem tbl s ++ getFileExtension (getFilename (ToLower tbl s)) ∧
    ('.' ∉ getFilename (ToLower tbl s) →
      getFileExtension (getFilename (ToLower tbl s)) = []) ∧
    ('.' ∈ getFilename (ToLower tbl s) →
      ∃ pre post, getFilename (ToLower tbl s) = pre ++ '.' :: post ∧ '.' ∉ post ∧
        getFileExtension (getFilename (ToLower tbl s)) = '.' :: post) :=
  ⟨sanitizedStem_stemChar tbl s, sanitizedStem_ext tbl s, urlToFilename_eq tbl s,
    (recordedExt_spec tbl s).1, (recordedExt_spec tbl s).2⟩

/-- C1, as stated, fails: `https://x.com/report_pdf_final` gives `report_final`,
which has no extension at all, and `https://x.com/a.pdf?v=1` gives
`a_v_1.pdf?v=1`, which contains `?` and `=` (both URLs are ASCII, so the case
table plays no part). -/
theorem urlToFilename_shape_counterexample :
    urlToFilename id "https://x.com/report_pdf_final".toList = "report_final".toList ∧
    sanitizedShape (urlToFilename id "https://x.com/report_pdf_final".toList) = false ∧
    urlToFilename id "https://x.com/a.pdf?v=1".toList = "a_v_1.pdf?v=1".toList ∧
    sanitizedShape (urlToFilename id "https://x.com/a.pdf?v=1".toList) = false := by
  decide

/-- C1, amended: for every input string, `urlToFilename` returns a stem followed
by the recorded extension; the stem contains only lowercase letters, digits and
underscores, has no two underscores in a row and no leading or trailing
underscore; the recorded extension is empty or a `.` followed by text without a
further `.`, so the name has at most one `.`. -/
theorem urlToFilename_shape (tbl : Char → Char) (s : GoString) :
    urlToFilename tbl s =
      sanitizedStem tbl s ++ getFileExtension (getFilename (ToLower tbl s)) ∧
    (∀ c ∈ sanitizedStem tbl s, stemChar c) ∧
    Contains (sanitizedStem tbl s) "__".toList = false ∧
    (sanitizedStem tbl s).head? ≠ some '_' ∧
    (sanitizedStem tbl s).getLast? ≠ some '_' ∧
    (getFileExtension (getFilename (ToLower tbl s)) = [] ∨
      ∃ post, getFileExtension (getFilename (ToLower tbl s)) = '.' :: post ∧ '.' ∉ post) ∧
    (urlToFilename tbl s).count '.' ≤ 1 := by
  have ht := sanitizedStem_tidy tbl s
  have hstem : (sanitizedStem tbl s).count '.' = 0 :=
    List.count_eq_zero_of_not_mem
      (fun h => stemChar_ne_dot (sanitizedStem_stemChar tbl s _ h) rfl)
  have hext : getFileExtension (getFilename (ToLower tbl s)) = [] ∨
      ∃ post, getFileExtension (getFilename (ToLower tbl s)) = '.' :: post ∧ '.' ∉ post := by
    by_cases hd : '.' ∈ getFilename (ToLower tbl s)
    · obtain ⟨_, post, _, h1, h2⟩ := (recordedExt_spec tbl s).2 hd
      exact Or.inr ⟨post, h2, h1⟩
    · exact Or.inl ((recordedExt_spec tbl s).1 hd)
  refine ⟨urlToFilename_eq tbl s, sanitizedStem_stemChar tbl s, tidy_not_double _ ht.1,
    ht.2, tidy_last _ ht.1, hext, ?_⟩
  rw [urlToFilename_eq, List.count_append, hstem, Nat.zero_add]
  rcases hext with h | ⟨post, h, hp⟩
  · rw [h]; simp
  · rw [h, List.count_cons_self, List.count_eq_zero_of_not_mem hp]

/-- C9, as stated, fails: for `https://x.com/a_p_pdfdf` the stem after the
removal loop is `a_pdf`, and for `https://x.com/a_z_zipip` it is `a_zip`: the
single pass deletes the occurrence and the text around it closes up into a new
one. -/
theorem sanitizedStem_counterexample :
    sanitizedStem id "https://x.com/a_p_pdfdf".toList = "a_pdf".toList ∧
    Contains (sanitizedStem id "https://x.com/a_p_pdfdf".toList) "_pdf".toList = true ∧
    sanitizedStem id "https://x.com/a_z_zipip".toList = "a_zip".toList ∧
    Contains (sanitizedStem id "https://x.com/a_z_zipip".toList) "_zip".toList = true := by
  decide

/-- C9, amended: when the stem before the removal loop contains none of the
fragments made of an underscore, one of `p`, `pd`, `z`, `zi`, and then `_pdf` or
`_zip` (`_p_pdf`, `_pd_pdf`, `_z_pdf`, `_zi_pdf`, `_p_zip`, `_pd_zip`, `_z_zip`,
`_zi_zip`), the stem after the loop contains no occurrence of `_pdf` and no
occurrence of `_zip`. -/
theorem sanitizedStem_clean (tbl : Char → Char) (s : GoString)
    (h : gapFree (trimmedStem (getFilename (ToLower tbl s))) = true) :
    Contains (sanitizedStem tbl s) "_pdf".toList = false ∧
    Contains (sanitizedStem tbl s) "_zip".toList = false :=
  stem_clean_of_gapFree (getFilename (ToLower tbl s)) h

/-- A URL whose stem has `_p_`, `_z_`, `_pd_` and `_zi_` next to occurrences of
`_pdf` and `_zip`, and no gap fragment. -/
theorem sanitizedStem_clean_witness :
    gapFree (trimmedStem (getFilename (ToLower id
      "https://example.com/Vitamin_P_complex_pdf_plan_z_2024_zip_pd_x_zi_y.PDF?x=_zip".toList)))
        = true ∧
    Contains (sanitizedStem id
      "https://example.com/Vitamin_P_complex_pdf_plan_z_2024_zip_pd_x_zi_y.PDF?x=_zip".toList)
      "_pdf".toList = false ∧
    Contains (sanitizedStem id
      "https://example.com/Vitamin_P_complex_pdf_plan_z_2024_zip_pd_x_zi_y.PDF?x=_zip".toList)
      "_zip".toList = false :=
  ⟨by decide, sanitizedStem_clean id _ (by decide)⟩

/-! ## Deduplicator -/

theorem removeDuplicatesLoop_acc : ∀ (rest : List GoString) (check : GoString → Bool)
    (acc : List GoString),
    removeDuplicatesLoop rest check acc = acc ++ removeDuplicatesLoop rest check [] := by
  intro rest
  induction rest with
  | nil => intro check acc; simp [removeDuplicatesLoop]
  | cons c cs ih =>
    intro check acc
    simp only [removeDuplicatesLoop]
    split
    · rw [ih _ (acc ++ [c]), ih _ ([] ++ [c])]
      simp
    · exact ih check acc

theorem removeDuplicatesLoop_cons (c : GoString) (cs : List GoString)
    (check : GoString → Bool) :
    removeDuplicatesLoop (c :: cs) check [] =
      if check c = true then removeDuplicatesLoop cs check []
      else c :: removeDuplicatesLoop cs (fun k => if k = c then true else check k) [] := by
  rw [removeDuplicatesLoop]
  by_cases h : check c = true
  · simp [h]
  · simp only [h, Bool.not_eq_true] at *
    rw [if_pos (by simp [h]), removeDuplicatesLoop_acc]
    simp

theorem removeDuplicatesLoop_mem : ∀ (rest : List GoString) (check : GoString → Bool)
    (x : GoString),
    x ∈ removeDuplicatesLoop rest check [] ↔ x ∈ rest ∧ check x = false := by
  intro rest
  induction rest with
  | nil => intro check x; simp [removeDuplicatesLoop]
  | cons c cs ih =>
    intro check x
    rw [removeDuplicatesLoop_cons]
    by_cases h : check c = true
    · rw [if_pos h, ih]
      constructor
      · rintro ⟨h1, h2⟩
        exact ⟨List.mem_cons_of_mem _ h1, h2⟩
      · rintro ⟨h1, h2⟩
        refine ⟨?_, h2⟩
        rcases List.mem_cons.mp h1 with e | e
        · rw [e, h] at h2; exact Bool.noConfusion h2
        · exact e
    · rw [if_neg h, List.mem_cons, ih]
      by_cases hx : x = c
      · subst hx
        simp [h]
      · simp [hx]

theorem removeDuplicatesLoop_nodup : ∀ (rest : List GoString) (check : GoString → Bool),
    (removeDuplicatesLoop rest check []).Nodup := by
  intro rest
  induction rest with
  | nil => intro check; simp [removeDuplicatesLoop]
  | cons c cs ih =>
    intro check
    rw [removeDuplicatesLoop_cons]
    split
    · exact ih check
    · rw [List.nodup_cons]
      refine ⟨?_, ih _⟩
      rw [removeDuplicatesLoop_mem]
      simp

theorem removeDuplicatesLoop_sublist : ∀ (rest : List GoString) (check : GoString → Bool),
    (removeDuplicatesLoop rest check []).Sublist rest := by
  intro rest
  induction rest with
  | nil => intro check; simp [removeDuplicatesLoop]
  | cons c cs ih =>
    intro check
    rw [removeDuplicatesLoop_cons]
    split
    · exact (ih check).trans (List.sublist_cons_self c cs)
    · exact (ih _).cons₂ c

theorem indexOf_head (x : GoString) (l : List GoString) : List.indexOf x (x :: l) = 0 := by
  rw [List.indexOf_cons]
  have : (x == x) = true := beq_self_eq_true x
  rw [this]; rfl

theorem indexOf_tail (x c : GoString) (l : List GoString) (h : c ≠ x) :
    List.indexOf x (c :: l) = List.indexOf x l + 1 := by
  rw [List.indexOf_cons]
  have : (c == x) = false := beq_false_of_ne h
  rw [this]; rfl

theorem removeDuplicatesLoop_order : ∀ (rest : List GoString) (check : GoString → Bool)
    (x y : GoString), check x = false → check y = false → x ∈ rest → y ∈ rest →
    (List.indexOf x (removeDuplicatesLoop rest check []) <
        List.indexOf y (removeDuplicatesLoop rest check []) ↔
      List.indexOf x rest < List.indexOf y rest) := by
  intro rest
  induction rest with
  | nil => intro check x y _ _ hx; simp at hx
  | cons c cs ih =>
    intro check x y hcx hcy hx hy
    rw [removeDuplicatesLoop_cons]
    by_cases hxc : c = x
    · subst hxc
      rw [if_neg (by simp [hcx])]
      by_cases hyc : c = y
      · subst hyc
        simp
      · rw [indexOf_head, indexOf_head, indexOf_tail _ _ _ hyc, indexOf_tail _ _ _ hyc]
        simp
    · have hx2 : x ∈ cs := by
        rcases List.mem_cons.mp hx with e | e
        · exact absurd e.symm hxc
        · exact e
      by_cases hyc : c = y
      · subst hyc
        rw [if_neg (by simp [hcy])]
        rw [indexOf_head, indexOf_head, indexOf_tail _ _ _ hxc, indexOf_tail _ _ _ hxc]
        simp
      · have hy2 : y ∈ cs := by
          rcases List.mem_cons.mp hy with e | e
          · exact absurd e.symm hyc
          · exact e
        rw [indexOf_tail _ _ cs hxc, indexOf_tail _ _ cs hyc, Nat.add_lt_add_iff_right]
        by_cases hc : check c = true
        · rw [if_pos hc]
          exact ih check x y hcx hcy hx2 hy2
        · rw [if_neg hc, indexOf_tail _ _ _ hxc, indexOf_tail _ _ _ hyc,
            Nat.add_lt_add_iff_right]
          apply ih _ x y _ _ hx2 hy2
          · simp [Ne.symm hxc, hcx]
          · simp [Ne.symm hyc, hcy]

theorem removeDuplicatesLoop_fixed : ∀ (l : List GoString) (check : GoString → Bool),
    l.Nodup → (∀ x ∈ l, check x = false) → removeDuplicatesLoop l check [] = l := by
  intro l
  induction l with
  | nil => intro check _ _; rfl
  | cons c cs ih =>
    intro check hn hc
    rw [removeDuplicatesLoop_cons, if_neg (by simp [hc c (List.mem_cons_self _ _)])]
    rw [List.nodup_cons] at hn
    rw [ih _ hn.2]
    intro x hx
    have hne : x ≠ c := fun e => hn.1 (e ▸ hx)
    simp [hne, hc x (List.mem_cons_of_mem _ hx)]

/-- C3: for every sequence `L`, `removeDuplicatesFromSlice L` has no repeated
element, contains exactly the values of `L`, is a subsequence of `L`, and orders
its values by their first occurrence in `L`. -/
theorem removeDuplicatesFromSlice_spec (L : List GoString) :
    (removeDuplicatesFromSlice L).Nodup ∧
    (∀ x, x ∈ removeDuplicatesFromSlice L ↔ x ∈ L) ∧
    (removeDuplicatesFromSlice L).Sublist L ∧
    (∀ x y, x ∈ L → y ∈ L →
      (List.indexOf x (removeDuplicatesFromSlice L) <
          List.indexOf y (removeDuplicatesFromSlice L) ↔
        List.indexOf x L < List.indexOf y L)) := by
  unfold removeDuplicatesFromSlice
  refine ⟨removeDuplicatesLoop_nodup L _, ?_, removeDuplicatesLoop_sublist L _, ?_⟩
  · intro x
    rw [removeDuplicatesLoop_mem]
    simp
  · intro x y hx hy
    exact removeDuplicatesLoop_order L _ x y rfl rfl hx hy

/-- C8: `removeDuplicatesFromSlice` is idempotent. -/
theorem removeDuplicatesFromSlice_idem (L : List GoString) :
    removeDuplicatesFromSlice (removeDuplicatesFromSlice L) = removeDuplicatesFromSlice L := by
  unfold removeDuplicatesFromSlice
  exact removeDuplicatesLoop_fixed _ _ (removeDuplicatesLoop_nodup L _) (fun _ _ => rfl)

/-! ## Link extractor -/

theorem traverseAttrs_eq (tbl : Char → Char) : ∀ (attr : List Attribute)
    (pdfLinks : List GoString),
    traverseAttrs tbl attr pdfLinks =
      pdfLinks ++ ((attr.filter (fun a => a.Key = "href".toList)).map
        (fun a => TrimSpace a.Val)).filter
          (fun href => Contains (ToLower tbl href) ".pdf".toList) := by
  intro attr
  induction attr with
  | nil => intro pdfLinks; simp [traverseAttrs]
  | cons a rest ih =>
    intro pdfLinks
    rw [traverseAttrs]
    by_cases hk : a.Key = "href".toList
    · rw [if_pos hk, List.filter_cons_of_pos (by simpa using hk), List.map_cons,
        List.filter_cons]
      by_cases hc : Contains (ToLower tbl (TrimSpace a.Val)) ".pdf".toList = true
      · simp only [hc, if_true, ih, List.append_assoc, List.singleton_append]
      · simp only [hc, if_false, ih]
        simp
    · rw [if_neg hk, ih, List.filter_cons_of_neg (by simpa using hk)]

mutual
theorem traverse_eq (tbl : Char → Char) : ∀ (n : Node) (pdfLinks : List GoString),
    traverse tbl n pdfLinks = pdfLinks ++ (preorder n).flatMap (nodeLinks tbl)
  | Node.mk type data attr children, pdfLinks => by
    rw [traverse, preorder, List.flatMap_cons, traverseChildren_eq tbl children]
    by_cases h : type = NodeType.ElementNode ∧ data = "a".toList
    · simp only [h, and_self, if_true, nodeLinks, traverseAttrs_eq, List.append_assoc]
    · simp only [h, if_false, nodeLinks, List.nil_append]
theorem traverseChildren_eq (tbl : Char → Char) : ∀ (l : List Node)
    (pdfLinks : List GoString),
    traverseChildren tbl l pdfLinks =
      pdfLinks ++ (preorderList l).flatMap (nodeLinks tbl)
  | [], pdfLinks => by simp [traverseChildren, preorderList]
  | c :: rest, pdfLinks => by
    rw [traverseChildren, traverse_eq tbl c, traverseChildren_eq tbl rest,
      preorderList, List.flatMap_append, List.append_assoc]
end

theorem TrimSpace_sublist (s : GoString) : (TrimSpace s).Sublist s := by
  unfold TrimSpace
  have h1 : ((s.dropWhile isSpace).reverse.dropWhile isSpace).Sublist
      (s.dropWhile isSpace).reverse := (List.dropWhile_suffix _).sublist
  have h2 := h1.reverse
  rw [List.reverse_reverse] at h2
  exact h2.trans (List.dropWhile_suffix _).sublist

theorem nodeLinks_ascii (tbl : Char → Char) (n : Node) (h : asciiAttrs n = true) :
    nodeLinks tbl n = nodeLinks id n := by
  obtain ⟨type, data, attr, children⟩ := n
  simp only [asciiAttrs, List.all_eq_true] at h
  rw [nodeLinks, nodeLinks]
  by_cases hcond : type = NodeType.ElementNode ∧ data = "a".toList
  · rw [if_pos hcond, if_pos hcond]
    apply List.filter_congr
    intro href hm
    rw [List.mem_map] at hm
    obtain ⟨a, ha, rfl⟩ := hm
    have ha2 : a ∈ attr := (List.mem_filter.mp ha).1
    have hv : isASCII (TrimSpace a.Val) = true := by
      have := h a ha2
      simp only [isASCII, List.all_eq_true] at this ⊢
      exact fun c hc => this c ((TrimSpace_sublist _).subset hc)
    rw [ToLower_ascii tbl id _ hv]
  · rw [if_neg hcond, if_neg hcond]

theorem specLinks_ascii (tbl : Char → Char) (doc : Node)
    (h : (preorder doc).all asciiAttrs = true) : specLinks tbl doc = specLinks id doc := by
  unfold specLinks
  rw [List.all_eq_true] at h
  generalize preorder doc = l at h
  induction l with
  | nil => rfl
  | cons n rest ih =>
    rw [List.flatMap_cons, List.flatMap_cons, nodeLinks_ascii tbl n (h n (List.mem_cons_self _ _)),
      ih (fun x hx => h x (List.mem_cons_of_mem _ hx))]

/-- C2: for every parsed tree, the traversal of `extractPDFUrls` returns exactly
the links read off the nodes in depth-first pre-order: for each element named
`a`, each `href` attribute whose trimmed value, lowercased, contains `.pdf`
contributes its trimmed value in its original case, duplicates included, and
nothing else contributes; a parse error gives the empty sequence; anchors with
hrefs `a.pdf`, `B.PDF`, `c.txt` give exactly `a.pdf`, `B.PDF`. -/
theorem extractPDFUrls_spec (tbl : Char → Char) (parse : GoString → Option Node)
    (htmlInput : GoString) :
    (∀ doc, parse htmlInput = some doc →
      extractPDFUrls tbl parse htmlInput = specLinks tbl doc) ∧
    (parse htmlInput = none → extractPDFUrls tbl parse htmlInput = []) ∧
    (parse htmlInput = some threeAnchors →
      extractPDFUrls tbl parse htmlInput = ["a.pdf".toList, "B.PDF".toList]) := by
  have key : ∀ doc, parse htmlInput = some doc →
      extractPDFUrls tbl parse htmlInput = specLinks tbl doc := by
    intro doc h
    unfold extractPDFUrls specLinks
    rw [h]
    simp only [traverse_eq, List.nil_append]
  refine ⟨key, ?_, ?_⟩
  · intro h
    unfold extractPDFUrls
    rw [h]
  · intro h
    rw [key _ h]
    rw [specLinks_ascii tbl threeAnchors (by decide)]
    decide

/-! ## Download validator and writer -/

theorem toLowerRune_stemChar (tbl : Char → Char) {c : Char} (h : stemChar c) :
    toLowerRune tbl c = c := by
  rcases h with h | h
  · simp only [isAlnumLower, Bool.or_eq_true, Bool.and_eq_true, decide_eq_true_eq] at h
    have h1 : c.toNat ≤ 127 := by omega
    have h2 : ¬(65 ≤ c.toNat ∧ c.toNat ≤ 90) := by omega
    simp [toLowerRune, h1, h2]
  · subst h
    rfl

theorem ToLower_fixed (tbl : Char → Char) : ∀ (s : GoString),
    (∀ c ∈ s, toLowerRune tbl c = c) → ToLower tbl s = s := by
  intro s
  induction s with
  | nil => intro _; rfl
  | cons c cs ih =>
    intro h
    have h2 := ih (fun d hd => h d (List.mem_cons_of_mem _ hd))
    unfold ToLower at h2 ⊢
    rw [List.map_cons, h c (List.mem_cons_self _ _), h2]

theorem mem_Base (p : GoString) (c : Char) (h : c ∈ Base p) : c ∈ p ∨ c = '.' ∨ c = '/' := by
  unfold Base at h
  split at h
  · right; left; simpa using h
  · simp only [] at h
    split at h
    · right; right; simpa using h
    · left
      have h1 := (lastElement_suffix _).subset h
      rw [List.mem_reverse] at h1
      have h2 := (List.dropWhile_suffix _).subset h1
      simpa using h2

theorem mem_Ext (p : GoString) (c : Char) (h : c ∈ Ext p) : c = '.' ∨ c ∈ p := by
  unfold Ext at h
  simp only [] at h
  split at h
  · rcases List.mem_cons.mp h with e | e
    · exact Or.inl e
    · right
      rw [List.mem_reverse] at e
      have h1 := ( List.takeWhile_prefix _).subset e
      rw [List.mem_reverse] at h1
      exact (lastElement_suffix p).subset h1
  · simp at h

theorem ToLower_urlToFilename (tbl : Char → Char) (s : GoString)
    (hIdem : ∀ c, toLowerRune tbl (toLowerRune tbl c) = toLowerRune tbl c) :
    ToLower tbl (urlToFilename tbl s) = urlToFilename tbl s := by
  apply ToLower_fixed
  intro c hc
  rw [urlToFilename_eq, List.mem_append] at hc
  rcases hc with hc | hc
  · exact toLowerRune_stemChar tbl (sanitizedStem_stemChar tbl s c hc)
  · rcases mem_Ext _ c hc with e | e
    · subst e; rfl
    · rcases mem_Base _ c e with e | e | e
      · unfold ToLower at e
        rw [List.mem_map] at e
        obtain ⟨d, _, rfl⟩ := e
        exact hIdem d
      · subst e; rfl
      · subst e; rfl

theorem toLowerRune_id_idem (c : Char) :
    toLowerRune id (toLowerRune id c) = toLowerRune id c := by
  by_cases h1 : c.toNat ≤ 127
  · by_cases h2 : 65 ≤ c.toNat ∧ c.toNat ≤ 90
    · obtain ⟨h3, h4⟩ := h2
      have hc : c = Char.ofNat c.toNat := (Char.ofNat_toNat c).symm
      generalize c.toNat = n at h3 h4 hc
      subst hc
      interval_cases n <;> rfl
    · simp [toLowerRune, h1, h2]
  · simp [toLowerRune, h1]

theorem fileExists_eq_false (fs : FileSystem) (p : GoString) :
    fileExists fs p = false ↔ ∀ content, fs p ≠ some (FileNode.file content) := by
  unfold fileExists
  cases h : fs p with
  | none => simp
  | some node =>
    cases node with
    | file content => simp
    | dir => simp

theorem downloadPDF_cases (tbl : Char → Char) (env : Env) (w : World)
    (finalURL outputDir : GoString) :
    ((downloadPDF tbl env w finalURL outputDir).1 = false ∧
      (downloadPDF tbl env w finalURL outputDir).2.fs = w.fs) ∨
    downloadAllowed tbl env w finalURL outputDir := by
  unfold downloadPDF downloadAllowed targetPath
  simp only []
  by_cases hex : fileExists w.fs (Join outputDir (ToLower tbl (urlToFilename tbl finalURL))) = true
  · left
    simp [hex, World.logged]
  · rw [Bool.not_eq_true] at hex
    have hno := (fileExists_eq_false _ _).mp hex
    cases hget : env.httpGet finalURL with
    | transportError => left; simp [hex, World.logged]
    | response statusCode contentType body =>
      by_cases hs : statusCode = 200
      · subst hs
        by_cases hct : (!Contains contentType octetStream
            && !Contains contentType applicationPdf) = true
        · left; simp [hex, hct, World.logged]
        · cases body with
          | none => left; simp [hex, hct, World.logged]
          | some buf =>
            by_cases hb : buf.length = 0
            · left; simp [hex, hct, hb, World.logged]
            · right
              refine ⟨hno, contentType, buf, rfl, ?_, ?_⟩
              · simp only [Bool.and_eq_true, Bool.not_eq_true', not_and, Bool.not_eq_false] at hct
                by_cases h1 : Contains contentType octetStream = true
                · exact Or.inl h1
                · exact Or.inr (hct (by simpa using h1))
              · intro e; apply hb; simp [e]
      · left; simp [hex, hs, World.logged]

theorem store_same (fs : FileSystem) (p : GoString) (node : FileNode) :
    fs.store p node p = some node := by
  simp [FileSystem.store]

theorem store_other (fs : FileSystem) (p q : GoString) (node : FileNode) (h : q ≠ p) :
    fs.store p node q = fs q := by
  simp [FileSystem.store, h]

theorem downloadPDF_on_existing (tbl : Char → Char) (env : Env) (w : World)
    (finalURL outputDir : GoString)
    (h : fileExists w.fs (targetPath tbl finalURL outputDir) = true) :
    downloadPDF tbl env w finalURL outputDir =
      (false, w.logged (LogEvent.alreadyExists (targetPath tbl finalURL outputDir))) := by
  unfold targetPath at h
  unfold downloadPDF targetPath
  simp only []
  rw [if_pos h]

theorem downloadPDF_on_success (tbl : Char → Char) (env : Env) (w : World)
    (finalURL outputDir contentType : GoString) (buf : List Nat)
    (hNo : w.fs (targetPath tbl finalURL outputDir) = none)
    (hGet : env.httpGet finalURL = GetResult.response 200 contentType (some buf))
    (hType : Contains contentType applicationPdf = true ∨
      Contains contentType octetStream = true)
    (hBody : buf ≠ [])
    (hCreate : env.createRefused (targetPath tbl finalURL outputDir) = false)
    (hWrite : env.writeError (targetPath tbl finalURL outputDir) = none) :
    downloadPDF tbl env w finalURL outputDir =
      (true,
        { fs := (w.fs.store (targetPath tbl finalURL outputDir) (FileNode.file [])).store
            (targetPath tbl finalURL outputDir) (FileNode.file buf),
          requests := w.requests ++ [finalURL],
          log := w.log ++ [LogEvent.downloaded buf.length finalURL
            (targetPath tbl finalURL outputDir)] }) := by
  unfold targetPath at hNo hCreate hWrite
  have hex : fileExists w.fs (Join outputDir (ToLower tbl (urlToFilename tbl finalURL))) = false := by
    simp [fileExists, hNo]
  have hct : (!Contains contentType octetStream && !Contains contentType applicationPdf)
      = false := by
    rcases hType with h | h <;> simp [h]
  have hlen : ¬ buf.length = 0 := fun e => hBody (List.length_eq_zero.mp e)
  have hcr : osCreate env w.fs (Join outputDir (ToLower tbl (urlToFilename tbl finalURL))) =
      some (w.fs.store (Join outputDir (ToLower tbl (urlToFilename tbl finalURL)))
        (FileNode.file [])) := by
    simp [osCreate, hNo, hCreate]
  unfold downloadPDF targetPath
  simp only [hex, hGet, hct, hcr, hWrite, World.logged]
  simp [hlen]

theorem downloadPDF_true_file (tbl : Char → Char) (env : Env) (w : World)
    (finalURL outputDir : GoString)
    (h : (downloadPDF tbl env w finalURL outputDir).1 = true) :
    ∃ buf, (downloadPDF tbl env w finalURL outputDir).2.fs
      (targetPath tbl finalURL outputDir) = some (FileNode.file buf) := by
  unfold downloadPDF at h ⊢
  unfold targetPath
  simp only [] at h ⊢
  by_cases hex : fileExists w.fs (Join outputDir (ToLower tbl (urlToFilename tbl finalURL))) = true
  · simp [hex] at h
  · rw [Bool.not_eq_true] at hex
    cases hget : env.httpGet finalURL with
    | transportError => simp [hex, hget] at h
    | response statusCode contentType body =>
      by_cases hs : statusCode = 200
      · subst hs
        by_cases hct : (!Contains contentType octetStream
            && !Contains contentType applicationPdf) = true
        · simp [hex, hget, hct] at h
        · cases body with
          | none => simp [hex, hget, hct] at h
          | some buf =>
            by_cases hb : buf.length = 0
            · simp [hex, hget, hct, hb] at h
            · cases hcr : osCreate env w.fs
                  (Join outputDir (ToLower tbl (urlToFilename tbl finalURL))) with
              | none => simp [hex, hget, hct, hb, hcr] at h
              | some fs1 =>
                cases hwr : env.writeError
                    (Join outputDir (ToLower tbl (urlToFilename tbl finalURL))) with
                | some k => simp [hex, hget, hct, hb, hcr, hwr] at h
                | none =>
                  refine ⟨buf, ?_⟩
                  simp [hex, hct, hb, hcr, hwr, World.logged, store_same]
      · simp [hex, hget, hs] at h

/-- C4: `downloadPDF` changes the file system only if no regular file was at
the target path, the GET was answered with status 200, the content type contains
`binary/octet-stream` or `application/pdf`, and the body is not empty; in every
other case it returns false and leaves the file system as it was, in particular
for status 200 with `text/html`, for status 200 with an empty body, for any
status other than 200 and for a transport error. -/
theorem downloadPDF_guard (tbl : Char → Char) (env : Env) (w : World)
    (finalURL outputDir : GoString) :
    ((downloadPDF tbl env w finalURL outputDir).2.fs ≠ w.fs →
      downloadAllowed tbl env w finalURL outputDir) ∧
    (¬ downloadAllowed tbl env w finalURL outputDir →
      (downloadPDF tbl env w finalURL outputDir).1 = false ∧
      (downloadPDF tbl env w finalURL outputDir).2.fs = w.fs) ∧
    (∀ body, env.httpGet finalURL = GetResult.response 200 "text/html".toList body →
      (downloadPDF tbl env w finalURL outputDir).1 = false ∧
      (downloadPDF tbl env w finalURL outputDir).2.fs = w.fs) ∧
    (∀ contentType, env.httpGet finalURL = GetResult.response 200 contentType (some []) →
      (downloadPDF tbl env w finalURL outputDir).1 = false ∧
      (downloadPDF tbl env w finalURL outputDir).2.fs = w.fs) ∧
    (∀ statusCode contentType body, statusCode ≠ 200 →
      env.httpGet finalURL = GetResult.response statusCode contentType body →
      (downloadPDF tbl env w finalURL outputDir).1 = false ∧
      (downloadPDF tbl env w finalURL outputDir).2.fs = w.fs) ∧
    (env.httpGet finalURL = GetResult.transportError →
      (downloadPDF tbl env w finalURL outputDir).1 = false ∧
      (downloadPDF tbl env w finalURL outputDir).2.fs = w.fs) := by
  have key : ¬ downloadAllowed tbl env w finalURL outputDir →
      (downloadPDF tbl env w finalURL outputDir).1 = false ∧
      (downloadPDF tbl env w finalURL outputDir).2.fs = w.fs := by
    intro hn
    rcases downloadPDF_cases tbl env w finalURL outputDir with h | h
    · exact h
    · exact absurd h hn
  refine ⟨?_, key, ?_, ?_, ?_, ?_⟩
  · intro hne
    by_contra hn
    exact hne (key hn).2
  · intro body hget
    apply key
    rintro ⟨_, contentType, buf, h1, h2, _⟩
    rw [hget] at h1
    injection h1 with _ hc _
    subst hc
    revert h2
    decide
  · intro contentType hget
    apply key
    rintro ⟨_, contentType2, buf, h1, _, h3⟩
    rw [hget] at h1
    injection h1 with _ _ hb
    injection hb with hb
    exact h3 hb.symm
  · intro statusCode contentType body hs hget
    apply key
    rintro ⟨_, contentType2, buf, h1, _, _⟩
    rw [hget] at h1
    injection h1 with h1 _ _
    exact hs h1
  · intro hget
    apply key
    rintro ⟨_, contentType2, buf, h1, _, _⟩
    rw [hget] at h1
    exact GetResult.noConfusion h1

/-- A server answering 200 with `text/html`: nothing is written. -/
theorem downloadPDF_guard_witness :
    (downloadPDF id htmlEnv emptyWorld scenarioURL "PDFs/".toList).1 = false ∧
    (downloadPDF id htmlEnv emptyWorld scenarioURL "PDFs/".toList).2.fs = emptyWorld.fs :=
  (downloadPDF_guard id htmlEnv emptyWorld scenarioURL "PDFs/".toList).2.2.1 _ rfl

/-- C5: if a regular file already exists at the target path
`Join outputDir (ToLower (urlToFilename url))`, `downloadPDF` returns false,
logs the skip, issues no GET and leaves the file system unchanged; so a call
that follows a successful call with the same URL and directory is skipped and
changes no file. -/
theorem downloadPDF_skip (tbl : Char → Char) (env : Env) (w : World)
    (finalURL outputDir : GoString) :
    (∀ content, w.fs (Join outputDir (ToLower tbl (urlToFilename tbl finalURL)))
        = some (FileNode.file content) →
      (downloadPDF tbl env w finalURL outputDir).1 = false ∧
      (downloadPDF tbl env w finalURL outputDir).2.fs = w.fs ∧
      (downloadPDF tbl env w finalURL outputDir).2.requests = w.requests ∧
      (downloadPDF tbl env w finalURL outputDir).2.log =
        w.log ++ [LogEvent.alreadyExists
          (Join outputDir (ToLower tbl (urlToFilename tbl finalURL)))]) ∧
    (∀ env0 w0, downloadPDF tbl env0 w0 finalURL outputDir = (true, w) →
      (downloadPDF tbl env w finalURL outputDir).1 = false ∧
      (downloadPDF tbl env w finalURL outputDir).2.fs = w.fs ∧
      (downloadPDF tbl env w finalURL outputDir).2.requests = w.requests ∧
      (downloadPDF tbl env w finalURL outputDir).2.log =
        w.log ++ [LogEvent.alreadyExists
          (Join outputDir (ToLower tbl (urlToFilename tbl finalURL)))]) := by
  have key : ∀ content, w.fs (Join outputDir (ToLower tbl (urlToFilename tbl finalURL)))
        = some (FileNode.file content) →
      (downloadPDF tbl env w finalURL outputDir).1 = false ∧
      (downloadPDF tbl env w finalURL outputDir).2.fs = w.fs ∧
      (downloadPDF tbl env w finalURL outputDir).2.requests = w.requests ∧
      (downloadPDF tbl env w finalURL outputDir).2.log =
        w.log ++ [LogEvent.alreadyExists
          (Join outputDir (ToLower tbl (urlToFilename tbl finalURL)))] := by
    intro content h
    have hex : fileExists w.fs (targetPath tbl finalURL outputDir) = true := by
      simp [fileExists, targetPath, h]
    rw [downloadPDF_on_existing tbl env w finalURL outputDir hex]
    exact ⟨rfl, rfl, rfl, rfl⟩
  refine ⟨key, ?_⟩
  intro env0 w0 h0
  have h1 : (downloadPDF tbl env0 w0 finalURL outputDir).1 = true := by rw [h0]
  obtain ⟨buf, hb⟩ := downloadPDF_true_file tbl env0 w0 finalURL outputDir h1
  rw [h0] at hb
  exact key buf hb

/-- A file is already at `PDFs/b_file_1.pdf`, and a second call after a first
successful one. -/
theorem downloadPDF_skip_witness :
    ((downloadPDF id pdfEnv fileWorld scenarioURL "PDFs/".toList).1 = false ∧
      (downloadPDF id pdfEnv fileWorld scenarioURL "PDFs/".toList).2.fs = fileWorld.fs ∧
      (downloadPDF id pdfEnv fileWorld scenarioURL "PDFs/".toList).2.requests = [] ∧
      (downloadPDF id pdfEnv fileWorld scenarioURL "PDFs/".toList).2.log =
        [LogEvent.alreadyExists "PDFs/b_file_1.pdf".toList]) ∧
    (downloadPDF id pdfEnv emptyWorld scenarioURL "PDFs/".toList).1 = true ∧
    (downloadPDF id htmlEnv (downloadPDF id pdfEnv emptyWorld scenarioURL "PDFs/".toList).2
      scenarioURL "PDFs/".toList).1 = false ∧
    (downloadPDF id htmlEnv (downloadPDF id pdfEnv emptyWorld scenarioURL "PDFs/".toList).2
      scenarioURL "PDFs/".toList).2.fs =
        (downloadPDF id pdfEnv emptyWorld scenarioURL "PDFs/".toList).2.fs :=
  ⟨(downloadPDF_skip id pdfEnv fileWorld scenarioURL "PDFs/".toList).1 [37, 80] (by decide),
    rfl,
    ((downloadPDF_skip id htmlEnv (downloadPDF id pdfEnv emptyWorld scenarioURL "PDFs/".toList).2
      scenarioURL "PDFs/".toList).2 pdfEnv emptyWorld rfl).1,
    ((downloadPDF_skip id htmlEnv (downloadPDF id pdfEnv emptyWorld scenarioURL "PDFs/".toList).2
      scenarioURL "PDFs/".toList).2 pdfEnv emptyWorld rfl).2.1⟩

/-- C6: when no file is at the target path, the GET is answered with status
200, a content type containing `application/pdf` (or `binary/octet-stream`) and
a non-empty body, and creating and writing the file do not fail, `downloadPDF`
returns true, the file at `Join outputDir (urlToFilename url)` then holds exactly
the served bytes, every other path is unchanged, and the byte count is logged;
for `https://site/a/B File (1).pdf` the name is `b_file_1.pdf`, so that under
`PDFs/` the path is `PDFs/b_file_1.pdf`.  The case table is assumed to send
lowercased code points to themselves. -/
theorem downloadPDF_success (tbl : Char → Char) (env : Env) (w : World)
    (finalURL outputDir contentType : GoString) (buf : List Nat)
    (hIdem : ∀ c, toLowerRune tbl (toLowerRune tbl c) = toLowerRune tbl c)
    (hNo : w.fs (Join outputDir (urlToFilename tbl finalURL)) = none)
    (hGet : env.httpGet finalURL = GetResult.response 200 contentType (some buf))
    (hType : Contains contentType applicationPdf = true ∨
      Contains contentType octetStream = true)
    (hBody : buf ≠ [])
    (hCreate : env.createRefused (Join outputDir (urlToFilename tbl finalURL)) = false)
    (hWrite : env.writeError (Join outputDir (urlToFilename tbl finalURL)) = none) :
    (downloadPDF tbl env w finalURL outputDir).1 = true ∧
    (downloadPDF tbl env w finalURL outputDir).2.fs
        (Join outputDir (urlToFilename tbl finalURL)) = some (FileNode.file buf) ∧
    (∀ p, p ≠ Join outputDir (urlToFilename tbl finalURL) →
      (downloadPDF tbl env w finalURL outputDir).2.fs p = w.fs p) ∧
    (downloadPDF tbl env w finalURL outputDir).2.log =
      w.log ++ [LogEvent.downloaded buf.length finalURL
        (Join outputDir (urlToFilename tbl finalURL))] ∧
    urlToFilename tbl scenarioURL = "b_file_1.pdf".toList ∧
    Join "PDFs/".toList (urlToFilename tbl scenarioURL) = "PDFs/b_file_1.pdf".toList := by
  have hp : targetPath tbl finalURL outputDir = Join outputDir (urlToFilename tbl finalURL) := by
    unfold targetPath
    rw [ToLower_urlToFilename tbl finalURL hIdem]
  rw [← hp] at hNo hCreate hWrite ⊢
  rw [downloadPDF_on_success tbl env w finalURL outputDir contentType buf hNo hGet hType
    hBody hCreate hWrite]
  have hs : urlToFilename tbl scenarioURL = "b_file_1.pdf".toList := by
    rw [urlToFilename_ascii tbl _ (by decide)]
    decide
  refine ⟨rfl, store_same _ _ _, ?_, rfl, hs, ?_⟩
  · intro p hne
    show ((w.fs.store _ _).store _ _) p = w.fs p
    rw [store_other _ _ _ _ hne, store_other _ _ _ _ hne]
  · rw [hs]
    decide

/-- The full-success scenario: `%PDF-1.4` served for
`https://site/a/B File (1).pdf` into an empty `PDFs/`. -/
theorem downloadPDF_success_witness :
    (downloadPDF id pdfEnv emptyWorld scenarioURL "PDFs/".toList).1 = true ∧
    (downloadPDF id pdfEnv emptyWorld scenarioURL "PDFs/".toList).2.fs
        "PDFs/b_file_1.pdf".toList = some (FileNode.file [37, 80, 68, 70, 45, 49, 46, 52]) ∧
    (∀ p, p ≠ "PDFs/b_file_1.pdf".toList →
      (downloadPDF id pdfEnv emptyWorld scenarioURL "PDFs/".toList).2.fs p = none) := by
  have h := downloadPDF_success id pdfEnv emptyWorld scenarioURL "PDFs/".toList
    "application/pdf".toList [37, 80, 68, 70, 45, 49, 46, 52] toLowerRune_id_idem rfl rfl
    (Or.inl (by decide)) (by decide) rfl rfl
  rw [h.2.2.2.2.2] at h
  exact ⟨h.1, h.2.1, h.2.2.1⟩

/-- Anchors with hrefs `a.pdf`, `B.PDF`, `c.txt`, parsed from any input. -/
theorem extractPDFUrls_spec_witness :
    extractPDFUrls id (fun _ => some threeAnchors) "<html>".toList = specLinks id threeAnchors ∧
    extractPDFUrls id (fun _ => some threeAnchors) "<html>".toList =
      ["a.pdf".toList, "B.PDF".toList] :=
  ⟨(extractPDFUrls_spec id (fun _ => some threeAnchors) "<html>".toList).1 threeAnchors rfl,
    (extractPDFUrls_spec id (fun _ => some threeAnchors) "<html>".toList).2.2 rfl⟩

/-- The order of `b` and `a` in the result for `a, b, a`. -/
theorem removeDuplicatesFromSlice_spec_witness :
    List.indexOf "a".toList (removeDuplicatesFromSlice ["a".toList, "b".toList, "a".toList]) <
        List.indexOf "b".toList (removeDuplicatesFromSlice ["a".toList, "b".toList, "a".toList]) ↔
      List.indexOf "a".toList ["a".toList, "b".toList, "a".toList] <
        List.indexOf "b".toList ["a".toList, "b".toList, "a".toList] :=
  (removeDuplicatesFromSlice_spec ["a".toList, "b".toList, "a".toList]).2.2.2 "a".toList "b".toList
    (by decide) (by decide)

/-- A URL whose final segment has two dots and a query string. -/
theorem urlToFilename_stem_ext_witness :
    ∃ pre post, getFilename (ToLower id "https://x.com/a.b.pdf?v=1".toList) = pre ++ '.' :: post ∧
      '.' ∉ post ∧
      getFileExtension (getFilename (ToLower id "https://x.com/a.b.pdf?v=1".toList)) = '.' :: post :=
  (urlToFilename_stem_ext id "https://x.com/a.b.pdf?v=1".toList).2.2.2.2 (by decide)

end BenjaminMoore
